import Mathlib

/-!
Verification development for the frigate-commander repository.

Shallow embedding of the algorithmic core of the repository:
* `frigate_segments.py` — segment merging (`merge_segments`);
* `frigate_sources.py`  — disk index cadence inference (`scan_index`),
  per-segment file selection (`find_files_for_segment`), and the
  per-segment resolution loop of `main` (disk entries vs VOD fallback);
* `utils.py` / `frigate_render.py` — `atempo_chain_for_speed`, `vod_url`;
* `api/worker.py` — progress-line classification (`parse_progress`),
  output-file extraction (`extract_output_file`) and the terminal-state
  logic of `run_job`;
* `api/jobs.py` — `update_job_status` on persisted job records;
* `api/main.py` — the startup crash-recovery scan in `lifespan`.

Machine integers are modelled as `Int`/`Nat`; Python floats appearing in
the relevant code paths are modelled as `ℚ` (all concrete values involved
are dyadic rationals, on which IEEE-754 double arithmetic is exact).
Python `round` is modelled as round-half-to-even (`pyRound`), which is
exactly Python 3 `round` semantics on these values.
-/

namespace Frigate

/-! ### frigate_segments.py: merge_segments -/

/-- A segment `(start, end)` in integer epoch seconds, as produced by
`build_segments_from_events`. -/
abbrev Segment := Int × Int

/-- Python `sorted(segments, key=lambda x: x[0])`: a stable sort by segment
start.  `List.insertionSort` with the non-strict key order is stable, hence
agrees with Python's Timsort output. -/
def sortSegments (l : List Segment) : List Segment :=
  l.insertionSort (fun a b => a.1 ≤ b.1)

/-- The sweep loop of `merge_segments`: `cur` is the currently open (last)
merged segment, the list is the remaining sorted input.  Mirrors the Python
loop body: merge into `cur` when `s <= pe + merge_gap`, else close `cur`. -/
def mergeLoop (gap : Int) (cur : Segment) : List Segment → List Segment
  | [] => [cur]
  | (s, e) :: rest =>
    if s ≤ cur.2 + gap then mergeLoop gap (cur.1, max cur.2 e) rest
    else cur :: mergeLoop gap (s, e) rest

/-- `frigate_segments.merge_segments`: sort by start, then one sweep merging
overlapping or near-overlapping segments. -/
def merge_segments (segments : List Segment) (merge_gap : Int) : List Segment :=
  match sortSegments segments with
  | [] => []
  | x :: rest => mergeLoop merge_gap x rest

/-- Two half-open integer intervals `[s, e)` overlap when some point lies in
both. -/
def overlap (a b : Segment) : Prop := max a.1 b.1 < min a.2 b.2

/-- Output invariant of the sweep: consecutive segments have non-decreasing
starts and are separated by a gap strictly greater than `gap`. -/
def SepBy (gap : Int) (l : List Segment) : Prop :=
  l.Chain' (fun a b => a.1 ≤ b.1 ∧ a.2 + gap < b.1)

instance : IsTrans Segment (fun a b => a.1 ≤ b.1) := ⟨fun _ _ _ h h' => le_trans h h'⟩

instance : IsTotal Segment (fun a b => a.1 ≤ b.1) := ⟨fun a b => le_total a.1 b.1⟩

/-! ### Python numeric helpers

Python 3 `round` rounds halves to the nearest even integer; the values this
repository rounds (`slop * cadence` with dyadic slops, and medians of small
integers) are exactly representable as IEEE-754 doubles, so the rational
model below agrees with the float computation on those inputs. -/

/-- Python 3 `round(q)`: nearest integer, halves to even. -/
def pyRound (q : ℚ) : Int :=
  if q - ⌊q⌋ < 1/2 then ⌊q⌋
  else if 1/2 < q - ⌊q⌋ then ⌊q⌋ + 1
  else if ⌊q⌋ % 2 = 0 then ⌊q⌋ else ⌊q⌋ + 1

/-- Python `s or default` on strings: the empty string is falsy. -/
def pyOrString (s d : String) : String := if s = "" then d else s

/-- Python `o or default` where `o` is an optional string. -/
def pyOrOpt (o : Option String) (d : String) : String :=
  match o with
  | some s => pyOrString s d
  | none => d

/-! ### frigate_sources.py: disk index, cadence, per-segment file selection -/

/-- One disk-index entry `(chunk_start_ts, file_path)`. -/
abbrev Entry := Int × String

instance : IsTrans Entry (fun a b => a.1 ≤ b.1) := ⟨fun _ _ _ h h' => le_trans h h'⟩

instance : IsTotal Entry (fun a b => a.1 ≤ b.1) := ⟨fun a b => le_total a.1 b.1⟩

instance : IsTrans Int (fun a b => a ≤ b) := ⟨fun _ _ _ h h' => le_trans h h'⟩

instance : IsTotal Int (fun a b => a ≤ b) := ⟨fun a b => le_total a b⟩

/-- The binary-search loop of `find_files_for_segment`: find the last index
whose timestamp is `≤ seg_start` (`-1` if none).  Mirrors the Python
`while lo <= hi` loop; `(lo + hi) / 2` is Python `//` (both operands are
non-negative whenever the division is reached). -/
def bsearchLoop (index : List Entry) (segStart lo hi pos : Int) : Int :=
  if lo ≤ hi then
    if (index.getD ((lo + hi) / 2).toNat (0, "")).1 ≤ segStart then
      bsearchLoop index segStart ((lo + hi) / 2 + 1) hi ((lo + hi) / 2)
    else
      bsearchLoop index segStart lo ((lo + hi) / 2 - 1) pos
  else pos
termination_by (hi + 1 - lo).toNat
decreasing_by
  all_goals omega

/-- `pos` as computed by the binary search in `find_files_for_segment`. -/
def selectPos (index : List Entry) (segStart : Int) : Int :=
  bsearchLoop index segStart 0 ((index.length : Int) - 1) (-1)

/-- Timestamp of the `j`-th index entry (`index[j][0]`). -/
def tsD (index : List Entry) (j : Nat) : Int := (index.getD j (0, "")).1

/-- The selection walk of `find_files_for_segment`: from `pos`, collect
entries while `ts < seg_end`; if none collected, fall back to `[index[pos]]`. -/
def selection (index : List Entry) (pos : Nat) (segEnd : Int) : List Entry :=
  let t := (index.drop pos).takeWhile fun x => x.1 < segEnd
  if t = [] then [index.getD pos (0, "")] else t

/-- `frigate_sources.find_files_for_segment`.  Returns `.ok selected` where
Python returns `(selected, None)` and `.error reason` where Python returns
`(None, reason)`. -/
def find_files_for_segment (index : List Entry) (cadence : Option Int)
    (segStart segEnd : Int) (startSlopMult endSlopMult : ℚ) :
    Except String (List Entry) :=
  if index = [] then .error "empty index"
  else
    let pos := selectPos index segStart
    if pos < 0 then .error "no chunk starts before segment start"
    else
      let selected := selection index pos.toNat segEnd
      let firstTs := (selected.getD 0 (0, "")).1
      let lastTs := (selected.getD (selected.length - 1) (0, "")).1
      match cadence with
      | some c =>
        if segStart > firstTs + pyRound (startSlopMult * c) then
          .error ("gap before start (seg_start " ++ toString segStart ++ " >> "
            ++ toString firstTs ++ ", cadence~" ++ toString c ++ "s)")
        else if segEnd > lastTs + pyRound (endSlopMult * c) then
          .error ("end beyond chunks (seg_end " ++ toString segEnd ++ " >> "
            ++ toString lastTs ++ ", cadence~" ++ toString c ++ "s)")
        else .ok selected
      | none => .ok selected

/-- The diff-collection loop of `scan_index`: walk the sorted timestamps with
a `last` register, keeping deltas `d` with `0 < d <= 60`. -/
def usableDiffsLoop : Option Int → List Int → List Int
  | _, [] => []
  | none, t :: rest => usableDiffsLoop (some t) rest
  | some last, t :: rest =>
    if 0 < t - last ∧ t - last ≤ 60 then (t - last) :: usableDiffsLoop (some t) rest
    else usableDiffsLoop (some t) rest

/-- Spec-side description of the usable deltas: consecutive differences of the
timestamp sequence that are greater than 0 and at most 60. -/
def usableDiffsSpec (ts : List Int) : List Int :=
  ((ts.zip ts.tail).map fun p => p.2 - p.1).filter fun d => 0 < d ∧ d ≤ 60

/-- `statistics.median` on a list of integers (Python returns the middle
element for odd length and the mean of the two middle elements for even
length; the mean of two integers is exact in double precision). -/
def pyMedian (l : List Int) : ℚ :=
  let s := l.insertionSort fun a b => a ≤ b
  if s.length % 2 = 1 then ((s.getD (s.length / 2) 0 : Int) : ℚ)
  else (((s.getD (s.length / 2 - 1) 0 : Int) : ℚ) + ((s.getD (s.length / 2) 0 : Int) : ℚ)) / 2

/-- The cadence computation of `scan_index` (the part after the directory
walk): sort the collected entries, collect usable consecutive deltas, and
return `round(median(diffs))`, or `None` when no usable delta exists. -/
def inferCadence (entries : List Entry) : Option Int :=
  let sortedEntries := entries.insertionSort fun a b => a.1 ≤ b.1
  let diffs := usableDiffsLoop none (sortedEntries.map Prod.fst)
  if diffs = [] then none else some (pyRound (pyMedian diffs))

/-! ### frigate_sources.py: VOD fallback and the resolution loop of main -/

/-- Python `str.rstrip(c)` for a single character. -/
def pyRstrip (s : String) (c : Char) : String :=
  String.mk (s.toList.reverse.dropWhile (· == c)).reverse

/-- `utils.vod_url` with the default template
`{base}/vod/{camera}/start/{start}/end/{end}/master.m3u8`. -/
def vod_url (base_url camera : String) (s e : Int) : String :=
  pyRstrip base_url '/' ++ "/vod/" ++ camera ++ "/start/" ++ toString s
    ++ "/end/" ++ toString e ++ "/master.m3u8"

/-- The `source` object attached to a manifest segment entry. -/
inductive SourceInfo where
  | disk (files : List String) (cadence : Option Int)
  | vod (url : String) (reason : String)
deriving DecidableEq

/-- A manifest segment entry `{start, end, source}` (`stop` models the JSON
key `end`, which is a Lean keyword). -/
structure ResolvedEntry where
  start : Int
  stop : Int
  source : SourceInfo
deriving DecidableEq

/-- The per-segment resolution loop of `frigate_sources.main` (the loop in
`frigate_montage.main` is identical).  `argsVod` is `args.source == "vod"`
after `--no-disk` handling; the scan results `(disk_index, cadence,
disk_err)` are passed in.  Mirrors: the whole run falls back to VOD when the
disk index is empty; otherwise a segment gets a disk entry when
`find_files_for_segment` succeeds and is otherwise recorded in
`disk_failures` (no manifest entry).  Returns `(resolved, disk_failures)`. -/
def resolve_run (argsVod : Bool) (disk_index : List Entry) (cadence : Option Int)
    (disk_err : Option String) (base_url camera : String)
    (startSlop endSlop : ℚ) (segments : List (Int × Int)) :
    List ResolvedEntry × List (Int × Int × Option String) :=
  let vodMode := argsVod || decide (disk_index = [])
  segments.foldl
    (fun acc seg =>
      if vodMode then
        (acc.1 ++ [⟨seg.1, seg.2, .vod (vod_url base_url camera seg.1 seg.2) "source=vod"⟩],
          acc.2)
      else if disk_index = [] then
        (acc.1, acc.2 ++ [(seg.1, seg.2, some (pyOrOpt disk_err "disk disabled"))])
      else
        match find_files_for_segment disk_index cadence seg.1 seg.2 startSlop endSlop with
        | .ok chosen =>
          if chosen = [] then (acc.1, acc.2 ++ [(seg.1, seg.2, (none : Option String))])
          else (acc.1 ++ [⟨seg.1, seg.2, .disk (chosen.map Prod.snd) cadence⟩], acc.2)
        | .error r => (acc.1, acc.2 ++ [(seg.1, seg.2, some r)]))
    ([], [])

/-- One step of an accumulate-two-lists fold: append `f x` (if any) to the
first accumulator and `g x` (if any) to the second. -/
def accStep {α β γ : Type} (f : α → Option β) (g : α → Option γ)
    (acc : List β × List γ) (x : α) : List β × List γ :=
  ((match f x with | some b => acc.1 ++ [b] | none => acc.1),
    (match g x with | some cc => acc.2 ++ [cc] | none => acc.2))

/-- The VOD entry emitted for a segment in VOD mode. -/
def vodEntry (base_url camera : String) (seg : Int × Int) : ResolvedEntry :=
  ⟨seg.1, seg.2, .vod (vod_url base_url camera seg.1 seg.2) "source=vod"⟩

/-- The manifest entry (if any) a segment produces in disk mode. -/
def diskResolve (disk_index : List Entry) (cadence : Option Int)
    (startSlop endSlop : ℚ) (seg : Int × Int) : Option ResolvedEntry :=
  match find_files_for_segment disk_index cadence seg.1 seg.2 startSlop endSlop with
  | .ok chosen =>
    if chosen = [] then none
    else some ⟨seg.1, seg.2, .disk (chosen.map Prod.snd) cadence⟩
  | .error _ => none

/-- The `disk_failures` record (if any) a segment produces in disk mode. -/
def diskFailure (disk_index : List Entry) (cadence : Option Int)
    (startSlop endSlop : ℚ) (seg : Int × Int) : Option (Int × Int × Option String) :=
  match find_files_for_segment disk_index cadence seg.1 seg.2 startSlop endSlop with
  | .ok chosen => if chosen = [] then some (seg.1, seg.2, none) else none
  | .error r => some (seg.1, seg.2, some r)

/-! ### utils.py / frigate_render.py: atempo_chain_for_speed -/

/-- The `while remaining > 2.0 + 1e-9` halving loop of
`atempo_chain_for_speed`, together with the final clamped factor. -/
def atempoLoop (remaining : ℚ) : List ℚ :=
  if _h : 2 + 1/1000000000 < remaining then 2 :: atempoLoop (remaining / 2)
  else if 1/1000000000 < |remaining - 1| then [max (1/2) (min 2 remaining)]
  else []
termination_by (⌈remaining⌉).toNat
decreasing_by
  have h2 : (2 : ℚ) < remaining := lt_trans (by norm_num) _h
  have h3 : (2 : ℤ) < ⌈remaining⌉ := by
    rw [Int.lt_ceil]
    push_cast
    exact h2
  have h4 : ⌈remaining / 2⌉ ≤ ⌈remaining⌉ - 1 := by
    rw [Int.ceil_le]
    push_cast
    have := Int.le_ceil remaining
    linarith
  omega

/-- `utils.atempo_chain_for_speed` (identical to the copy in
`frigate_render.py`): decompose a speed factor into a chain of atempo
factors, each in `[0.5, 2.0]`. -/
def atempo_chain_for_speed (speed : ℚ) : List ℚ := atempoLoop speed

/-! ### api/worker.py: progress parsing (character-list model of the regexes) -/

/-- Python `\s` / `str.strip` whitespace (ASCII part; the lines parsed here
are ASCII). -/
def pyIsSpace (c : Char) : Bool :=
  c == ' ' || c == '\t' || c == '\n' || c == '\r' || c == '\x0b' || c == '\x0c'

/-- Python `str.strip()`. -/
def pyStripChars (l : List Char) : List Char :=
  ((l.dropWhile pyIsSpace).reverse.dropWhile pyIsSpace).reverse

/-- Python `str.strip()` on a `String`. -/
def pyStripStr (s : String) : String := String.mk (pyStripChars s.toList)

/-- `needle` is a prefix of `hay` (Python `str.startswith`). -/
def startsWithChars : List Char → List Char → Bool
  | [], _ => true
  | _ :: _, [] => false
  | a :: as, b :: bs => a == b && startsWithChars as bs

/-- Python `needle in hay` substring test. -/
def containsSub (needle : List Char) : List Char → Bool
  | [] => startsWithChars needle []
  | c :: rest => startsWithChars needle (c :: rest) || containsSub needle rest

/-- `re.search` position scan: try the matcher at every start position, in
order, returning the first success. -/
def scanFirst {β : Type} (f : List Char → Option β) : List Char → Option β
  | [] => f []
  | c :: rest =>
    match f (c :: rest) with
    | some r => some r
    | none => scanFirst f rest

/-- `re.search` position scan for a boolean matcher. -/
def scanBool (f : List Char → Bool) : List Char → Bool
  | [] => f []
  | c :: rest => f (c :: rest) || scanBool f rest

def isDigitOrDot (c : Char) : Bool := c.isDigit || c == '.'

/-- Matcher for `Progress:\s*([\d.]+)%` anchored at the current position:
after `Progress:` and optional whitespace, the group is the longest nonempty
prefix of the maximal `[\d.]` run that is followed by `%`; every proper
prefix of the run is followed by a digit or dot, so only the full run,
immediately followed by `%`, can match. -/
def matchPercentAt (l : List Char) : Option (List Char) :=
  if startsWithChars "Progress:".toList l then
    let rest := (l.drop 9).dropWhile pyIsSpace
    let run := rest.takeWhile isDigitOrDot
    if (!run.isEmpty) && ((rest.drop run.length).headD ' ' == '%') then some run
    else none
  else none

/-- Matcher for `Progress:\s*(\d+)/(\d+)` anchored at the current position
(the digit runs are maximal for the same reason as in `matchPercentAt`). -/
def matchCountAt (l : List Char) : Option (List Char × List Char) :=
  if startsWithChars "Progress:".toList l then
    let rest := (l.drop 9).dropWhile pyIsSpace
    let d1 := rest.takeWhile Char.isDigit
    if (!d1.isEmpty) && ((rest.drop d1.length).headD ' ' == '/') then
      let d2 := ((rest.drop d1.length).drop 1).takeWhile Char.isDigit
      if !d2.isEmpty then some (d1, d2) else none
    else none
  else none

/-- Matcher for `Extracting first frame from (\d+) files` anchored at the
current position. -/
def matchExtractAt (l : List Char) : Bool :=
  startsWithChars "Extracting first frame from ".toList l &&
    (let rest := l.drop 28
     let d := rest.takeWhile Char.isDigit
     (!d.isEmpty) && startsWithChars " files".toList (rest.drop d.length))

/-- `.+\.mp4`: at least one non-newline character followed by ".mp4". -/
def matchEncodingTail : List Char → Bool
  | [] => false
  | c :: rest =>
    (c != '\n') && (startsWithChars ".mp4".toList rest || matchEncodingTail rest)

/-- Matcher for `Encoding (.+\.mp4)` anchored at the current position. -/
def matchEncodingAt (l : List Char) : Bool :=
  startsWithChars "Encoding ".toList l && matchEncodingTail (l.drop 9)

/-- Decimal value of a digit run (`int(...)`). -/
def digitsVal (l : List Char) : Nat := l.foldl (fun acc c => acc * 10 + (c.toNat - 48)) 0

/-- Python `float(g)` for a `[\d.]+` group: defined when the group has at
most one dot and at least one digit, the cases where `float` does not raise
`ValueError`. -/
def parsePyFloat (g : List Char) : Option ℚ :=
  if g.count '.' ≤ 1 && g.any Char.isDigit then
    let ip := g.takeWhile fun c => c != '.'
    let fp := (g.dropWhile fun c => c != '.').drop 1
    some ((digitsVal ip : ℚ) + (digitsVal fp : ℚ) / (10 : ℚ) ^ fp.length)
  else none

/-- `api/models.JobProgress`. -/
structure JobProgress where
  phase : String
  percent : ℚ
  message : String
deriving DecidableEq

/-- `api/worker.parse_progress`.  Returns `none` exactly when Python would
raise (a `ValueError` from `float(...)` on a malformed percentage group);
otherwise `some` of the updated progress. -/
def parse_progress (line : String) (current : JobProgress) : Option JobProgress :=
  let l := pyStripChars line.toList
  match scanFirst matchPercentAt l with
  | some g =>
    match parsePyFloat g with
    | some pct => some ⟨pyOrString current.phase "render", min 100 pct, String.mk l⟩
    | none => none
  | none =>
    match scanFirst matchCountAt l with
    | some dt =>
      some ⟨pyOrString current.phase "process",
        min 100 (if 0 < digitsVal dt.2 then
          (digitsVal dt.1 : ℚ) / (digitsVal dt.2 : ℚ) * 100 else 0),
        String.mk l⟩
    | none =>
      if scanBool matchExtractAt l then some ⟨"extract", 0, String.mk l⟩
      else if scanBool matchEncodingAt l then some ⟨"encode", current.percent, String.mk l⟩
      else
        let lower := l.map Char.toLower
        if containsSub "segment".toList lower &&
            (containsSub "found".toList lower || containsSub "total".toList lower) then
          some ⟨"segments", 0, String.mk l⟩
        else if containsSub "concat".toList lower then some ⟨"concat", 0, String.mk l⟩
        else if containsSub "running:".toList lower || containsSub "ffmpeg".toList lower then
          some ⟨"render", 0, String.mk l⟩
        else if containsSub "done:".toList lower then some ⟨"complete", 100, String.mk l⟩
        else if containsSub "error".toList lower || containsSub "failed".toList lower then
          some ⟨"error", current.percent, String.mk l⟩
        else if l ≠ [] ∧ l.headD ' ' ≠ '[' then
          some ⟨current.phase, current.percent, String.mk l⟩
        else some current

/-- Holds when a (stripped) line matches none of the pattern rules of
`parse_progress` (neither the regex patterns nor the keyword phase hints). -/
def noRuleMatch (l : List Char) : Prop :=
  scanFirst matchPercentAt l = none ∧ scanFirst matchCountAt l = none ∧
  scanBool matchExtractAt l = false ∧ scanBool matchEncodingAt l = false ∧
  (containsSub "segment".toList (l.map Char.toLower) &&
    (containsSub "found".toList (l.map Char.toLower) ||
      containsSub "total".toList (l.map Char.toLower))) = false ∧
  containsSub "concat".toList (l.map Char.toLower) = false ∧
  (containsSub "running:".toList (l.map Char.toLower) ||
    containsSub "ffmpeg".toList (l.map Char.toLower)) = false ∧
  containsSub "done:".toList (l.map Char.toLower) = false ∧
  (containsSub "error".toList (l.map Char.toLower) ||
    containsSub "failed".toList (l.map Char.toLower)) = false

instance : DecidablePred noRuleMatch := fun l => by
  unfold noRuleMatch
  infer_instance

/-! ### api/worker.py run_job + api/jobs.py update_job_status -/

/-- Matcher for `Wrote \d+ entries to (.+)$` anchored at the current
position (`$` also matches just before a final newline). -/
def wroteEntriesAt (l : List Char) : Option (List Char) :=
  if startsWithChars "Wrote ".toList l then
    let rest := l.drop 6
    let d := rest.takeWhile Char.isDigit
    if (!d.isEmpty) && startsWithChars " entries to ".toList (rest.drop d.length) then
      let tail0 := rest.drop (d.length + 12)
      let tail1 := if tail0.getLast? = some '\n' then tail0.dropLast else tail0
      if tail1 ≠ [] ∧ ¬ '\n' ∈ tail1 then some tail1 else none
    else none
  else none

/-- `api/worker.extract_output_file`; `fileExists` abstracts
`os.path.exists`.  The Python checks are sequential `if` blocks that fall
through: a `DONE:`/`Output:` prefix whose path fails the existence check
does NOT short-circuit, the line is still tried against the next checks
(a line cannot carry both prefixes, so each guard below pairs the prefix
test with its existence test). -/
def extract_output_file (fileExists : String → Bool) (line : String) : Option String :=
  if startsWithChars "DONE:".toList line.toList
      && fileExists (pyStripStr (String.mk (line.toList.drop 5))) then
    some (pyStripStr (String.mk (line.toList.drop 5)))
  else if startsWithChars "Output:".toList line.toList
      && fileExists (pyStripStr (String.mk (line.toList.drop 7))) then
    some (pyStripStr (String.mk (line.toList.drop 7)))
  else
    match scanFirst wroteEntriesAt line.toList with
    | some g =>
      let path := pyStripStr (String.mk g)
      if fileExists path then some path else none
    | none => none

/-- Job status enumeration of `api/models.py`. -/
inductive JobStatus where
  | pending
  | running
  | completed
  | failed
  | cancelled
deriving DecidableEq

/-- The persisted job record (`api/models.Job`), restricted to the fields
the verified claims are about; timestamps, progress, pid and log reference
are irrelevant to the terminal-state invariants. -/
structure JobRec where
  id : String
  status : JobStatus
  output_file : Option String
  error : Option String
deriving DecidableEq

instance : Inhabited JobRec := ⟨⟨"", .pending, none, none⟩⟩

/-- `api/jobs.update_job_status`: sets the status, and overwrites the error
only when the new error is truthy (non-`None` and non-empty). -/
def update_job_status (job : JobRec) (status : JobStatus) (error : Option String) : JobRec :=
  { job with
    status := status
    error := match error with
      | some e => if e = "" then job.error else some e
      | none => job.error }

/-- `api/jobs.update_job_output`. -/
def update_job_output (job : JobRec) (output_file : String) : JobRec :=
  { job with output_file := some output_file }

/-- How the supervised subprocess run ends, as observed by `run_job`:
normal exit with a return code, an `asyncio.CancelledError`, or some other
exception with message `msg` (`str(e)`). -/
inductive RunOutcome where
  | exited (returncode : Int)
  | cancelled
  | exception (msg : String)
deriving DecidableEq

/-- The `output_file` accumulation of `run_job`'s read loop: the last line
from which `extract_output_file` extracts a path wins. -/
def lastOutputFile (fileExists : String → Bool) (lines : List String) : Option String :=
  lines.foldl
    (fun acc line =>
      match extract_output_file fileExists (pyStripStr line) with
      | some p => some p
      | none => acc)
    none

/-- The terminal-state logic of `run_job` after the read loop: exit code 0
records the discovered output (if any) and completes; non-zero exit fails
with the exit-code message; cancellation cancels; any other exception fails
with its message. -/
def run_job_finalize (fileExists : String → Bool) (lines : List String)
    (outcome : RunOutcome) (job : JobRec) : JobRec :=
  match outcome with
  | .exited rc =>
    if rc = 0 then
      let job' := match lastOutputFile fileExists lines with
        | some p => update_job_output job p
        | none => job
      update_job_status job' .completed none
    else
      update_job_status job .failed (some ("Process exited with code " ++ toString rc))
  | .cancelled => update_job_status job .cancelled (some "Job was cancelled")
  | .exception msg => update_job_status job .failed (some msg)

/-- `api/worker.run_job` on a persisted job record: mark it running, then
apply the terminal transition determined by the subprocess outcome. -/
def run_job (fileExists : String → Bool) (lines : List String)
    (outcome : RunOutcome) (job : JobRec) : JobRec :=
  run_job_finalize fileExists lines outcome (update_job_status job .running none)

/-- A terminal job status. -/
def isTerminal (s : JobStatus) : Prop :=
  s = .completed ∨ s = .failed ∨ s = .cancelled

/-! ### api/main.py lifespan: startup crash recovery over the job store -/

/-- The error message written by the startup recovery scan. -/
def restartError : String := "Server restarted while job was running"

/-- `update_job_status` lifted to the persisted store (one record per job
id; the file store updates the record with the given id). -/
def update_job_status_store (store : List JobRec) (id : String)
    (status : JobStatus) (error : Option String) : List JobRec :=
  store.map fun j => if j.id = id then update_job_status j status error else j

/-- `api/jobs.get_running_jobs`. -/
def get_running_jobs (store : List JobRec) : List JobRec :=
  store.filter fun j => j.status = .running

/-- The effect of one recovery update on a record. -/
def failJob (j : JobRec) : JobRec := update_job_status j .failed (some restartError)

/-- The startup scan of `api/main.lifespan`: for every job found `running`,
force its persisted status to `failed` with `restartError`. -/
def startup_recover (store : List JobRec) : List JobRec :=
  (get_running_jobs store).foldl
    (fun st job => update_job_status_store st job.id .failed (some restartError)) store

theorem mergeLoop_head (gap : Int) (l : List Segment) :
    ∀ cur, ∃ e2 t, mergeLoop gap cur l = (cur.1, e2) :: t := by
  induction l with
  | nil => exact fun cur => ⟨cur.2, [], by simp [mergeLoop]⟩
  | cons hd rest ih =>
    obtain ⟨s, e⟩ := hd
    intro cur
    simp only [mergeLoop]
    split
    · obtain ⟨e2, t, ht⟩ := ih (cur.1, max cur.2 e)
      exact ⟨e2, t, ht⟩
    · exact ⟨cur.2, mergeLoop gap (s, e) rest, rfl⟩

theorem mergeLoop_sep (gap : Int) (l : List Segment) :
    ∀ cur, ((cur :: l).Pairwise fun a b => a.1 ≤ b.1) →
      SepBy gap (mergeLoop gap cur l) := by
  induction l with
  | nil => intro cur _; simp [SepBy, mergeLoop]
  | cons hd rest ih =>
    obtain ⟨s, e⟩ := hd
    intro cur h
    rw [List.pairwise_cons] at h
    obtain ⟨hcur, htail⟩ := h
    have htail' := (List.pairwise_cons.mp htail)
    simp only [mergeLoop]
    split
    · apply ih (cur.1, max cur.2 e)
      rw [List.pairwise_cons]
      exact ⟨fun x hx => hcur x (List.mem_cons_of_mem _ hx), htail'.2⟩
    · rename_i hif
      obtain ⟨e2, t, ht⟩ := mergeLoop_head gap rest (s, e)
      rw [SepBy, ht, List.chain'_cons]
      constructor
      · exact ⟨hcur (s, e) (List.mem_cons_self _ _), by omega⟩
      · rw [← ht]
        exact ih (s, e) htail

theorem mergeLoop_of_sep (gap : Int) (l : List Segment) :
    ∀ cur, SepBy gap (cur :: l) → mergeLoop gap cur l = cur :: l := by
  induction l with
  | nil => intro cur _; rfl
  | cons hd rest ih =>
    obtain ⟨s, e⟩ := hd
    intro cur h
    rw [SepBy, List.chain'_cons] at h
    simp only [mergeLoop, if_neg (by omega : ¬ s ≤ cur.2 + gap)]
    rw [ih (s, e) h.2]

theorem sortSegments_pairwise (l : List Segment) :
    (sortSegments l).Pairwise fun a b => a.1 ≤ b.1 :=
  List.sorted_insertionSort _ l

theorem merge_segments_sep (segments : List Segment) (merge_gap : Int) :
    SepBy merge_gap (merge_segments segments merge_gap) := by
  unfold merge_segments
  rcases h : sortSegments segments with _ | ⟨x, rest⟩
  · simp [SepBy]
  · exact mergeLoop_sep merge_gap rest x (h ▸ sortSegments_pairwise segments)

theorem SepBy.pairwise {gap : Int} {l : List Segment} (h : SepBy gap l) :
    l.Pairwise fun a b => a.1 ≤ b.1 ∧ a.2 + gap < b.1 :=
  (@List.chain'_iff_pairwise _ _
    ⟨fun _ _ _ hab hbc => ⟨le_trans hab.1 hbc.1, lt_of_lt_of_le hab.2 hbc.1⟩⟩).mp h

/-- C2: for every list of integer segments and every non-negative merge gap,
`merge_segments` returns a list that is sorted (non-decreasing) by start,
pairwise non-overlapping, and in which every two consecutive segments are
separated by a gap strictly greater than `merge_gap`
(`next.start - prev.end > merge_gap`). -/
theorem merge_segments_sorted_disjoint (segments : List Segment) (merge_gap : Int)
    (hgap : 0 ≤ merge_gap) :
    ((merge_segments segments merge_gap).Chain' fun a b => a.1 ≤ b.1) ∧
    ((merge_segments segments merge_gap).Pairwise fun a b => ¬ overlap a b) ∧
    ((merge_segments segments merge_gap).Chain' fun a b => merge_gap < b.1 - a.2) := by
  have hsep := merge_segments_sep segments merge_gap
  refine ⟨hsep.imp fun _ _ h => h.1, ?_, hsep.imp fun _ _ h => by omega⟩
  refine List.Pairwise.imp ?_ hsep.pairwise
  intro a b hab hov
  rw [overlap] at hov
  have h1 : min a.2 b.2 ≤ a.2 := min_le_left _ _
  have h2 : b.1 ≤ max a.1 b.1 := le_max_right _ _
  omega

/-- Witness for C2 at a concrete input. -/
theorem merge_segments_sorted_disjoint_witness :
    (0 : Int) ≤ 15 ∧
    (((merge_segments [((100 : Int), (110 : Int)), (95, 105), (200, 210)] 15).Chain'
        fun a b => a.1 ≤ b.1) ∧
    ((merge_segments [((100 : Int), (110 : Int)), (95, 105), (200, 210)] 15).Pairwise
        fun a b => ¬ overlap a b) ∧
    ((merge_segments [((100 : Int), (110 : Int)), (95, 105), (200, 210)] 15).Chain'
        fun a b => (15 : Int) < b.1 - a.2)) :=
  ⟨by norm_num,
   merge_segments_sorted_disjoint [((100 : Int), (110 : Int)), (95, 105), (200, 210)] 15
     (by norm_num)⟩

/-- C8: `merge_segments` is idempotent: applying it to its own output with the
same gap parameter returns that output unchanged. -/
theorem merge_segments_idempotent (segments : List Segment) (merge_gap : Int)
    (_hgap : 0 ≤ merge_gap) :
    merge_segments (merge_segments segments merge_gap) merge_gap
      = merge_segments segments merge_gap := by
  have hsep := merge_segments_sep segments merge_gap
  have hsorted : (merge_segments segments merge_gap).Sorted fun a b => a.1 ≤ b.1 :=
    hsep.pairwise.imp fun h => h.1
  generalize hout : merge_segments segments merge_gap = out at *
  unfold merge_segments sortSegments
  rw [hsorted.insertionSort_eq]
  cases out with
  | nil => rfl
  | cons x rest => exact mergeLoop_of_sep merge_gap rest x hsep

/-- Witness for C8 at a concrete input. -/
theorem merge_segments_idempotent_witness :
    (0 : Int) ≤ 10 ∧
    merge_segments (merge_segments [((50 : Int), (60 : Int)), (5, 20), (25, 30)] 10) 10
      = merge_segments [((50 : Int), (60 : Int)), (5, 20), (25, 30)] 10 :=
  ⟨by norm_num,
   merge_segments_idempotent [((50 : Int), (60 : Int)), (5, 20), (25, 30)] 10 (by norm_num)⟩

/-! ### pyRound characterization -/

theorem pyRound_eq_of_frac_lt {q : ℚ} {f : Int} (hf : ⌊q⌋ = f) (h : q - f < 1/2) :
    pyRound q = f := by
  rw [pyRound, hf, if_pos h]

theorem pyRound_eq_of_frac_gt {q : ℚ} {f : Int} (hf : ⌊q⌋ = f) (h : 1/2 < q - f) :
    pyRound q = f + 1 := by
  rw [pyRound, hf, if_neg (by linarith), if_pos h]

theorem pyRound_eq_of_half_odd {q : ℚ} {f : Int} (hf : ⌊q⌋ = f) (h : q - f = 1/2)
    (hodd : f % 2 = 1) : pyRound q = f + 1 := by
  rw [pyRound, hf, if_neg (by rw [h]; norm_num), if_neg (by rw [h]; norm_num),
    if_neg (by omega)]

theorem pyRound_eq_of_half_even {q : ℚ} {f : Int} (hf : ⌊q⌋ = f) (h : q - f = 1/2)
    (heven : f % 2 = 0) : pyRound q = f := by
  rw [pyRound, hf, if_neg (by rw [h]; norm_num), if_neg (by rw [h]; norm_num),
    if_pos heven]

theorem pyRound_intCast (n : Int) : pyRound (n : ℚ) = n := by
  apply pyRound_eq_of_frac_lt (Int.floor_intCast n)
  norm_num

/-- A string with a nonempty prefix is nonempty. -/
theorem append_ne_empty (s t : String) (hs : s.length ≠ 0) : s ++ t ≠ "" := by
  intro he
  have hlen := congrArg String.length he
  rw [String.length_append] at hlen
  simp only [String.length_empty] at hlen
  omega

/-! ### C9: atempo chain for speed 25 -/

/-- C9: for input speed 25.0, `atempo_chain_for_speed` returns four stages of
2.0 plus one of 1.5625 (= 25/16); the product of the factors is exactly 25
and every factor lies in `[0.5, 2.0]`. -/
theorem atempo_chain_for_speed_25 :
    atempo_chain_for_speed 25 = [2, 2, 2, 2, 25/16] ∧
    (atempo_chain_for_speed 25).prod = 25 ∧
    (atempo_chain_for_speed 25).Forall fun f => 1/2 ≤ f ∧ f ≤ 2 := by
  have habs : |(9/16 : ℚ)| = 9/16 := abs_of_pos (by norm_num)
  have h : atempo_chain_for_speed 25 = [2, 2, 2, 2, 25/16] := by
    rw [atempo_chain_for_speed]
    rw [atempoLoop]; norm_num
    rw [atempoLoop]; norm_num
    rw [atempoLoop]; norm_num
    rw [atempoLoop]; norm_num
    rw [atempoLoop]; norm_num [habs, min_def, max_def]
  refine ⟨h, ?_, ?_⟩
  · rw [h]; norm_num
  · rw [h]
    refine List.forall_cons _ _ _ |>.mpr ⟨by norm_num, ?_⟩
    refine List.forall_cons _ _ _ |>.mpr ⟨by norm_num, ?_⟩
    refine List.forall_cons _ _ _ |>.mpr ⟨by norm_num, ?_⟩
    refine List.forall_cons _ _ _ |>.mpr ⟨by norm_num, ?_⟩
    refine List.forall_cons _ _ _ |>.mpr ⟨by norm_num, ?_⟩
    exact trivial

/-! ### C1: terminal job records written by run_job -/

/-- C1 (amended): a job finished by `run_job` with a non-zero exit code, a
cancellation, or a non-empty exception message has a non-empty error; a job
finished with exit code 0 is `completed`, keeps its prior error, and gets an
output file exactly when some output-marker line was recognized — so a fresh
completed job whose run produced no recognized output line has neither an
output file nor an error. -/
theorem run_job_terminal_record (fileExists : String → Bool) (lines : List String)
    (job : JobRec) :
    (∀ rc : Int, rc ≠ 0 →
      (run_job fileExists lines (.exited rc) job).status = .failed ∧
      (run_job fileExists lines (.exited rc) job).error
        = some ("Process exited with code " ++ toString rc)) ∧
    ((run_job fileExists lines .cancelled job).status = .cancelled ∧
      (run_job fileExists lines .cancelled job).error = some "Job was cancelled") ∧
    (∀ msg : String, msg ≠ "" →
      (run_job fileExists lines (.exception msg) job).status = .failed ∧
      (run_job fileExists lines (.exception msg) job).error = some msg) ∧
    ((run_job fileExists lines (.exited 0) job).status = .completed ∧
      (run_job fileExists lines (.exited 0) job).error = job.error ∧
      (run_job fileExists lines (.exited 0) job).output_file
        = (match lastOutputFile fileExists lines with
            | some p => some p
            | none => job.output_file)) := by
  refine ⟨fun rc hrc => ?_, ?_, fun msg hmsg => ?_, ?_⟩
  · have hne : "Process exited with code " ++ toString rc ≠ "" :=
      append_ne_empty _ _ (by decide)
    simp [run_job, run_job_finalize, update_job_status, hrc, hne]
  · simp [run_job, run_job_finalize, update_job_status]
  · simp [run_job, run_job_finalize, update_job_status, hmsg]
  · rcases h : lastOutputFile fileExists lines with _ | p <;>
      simp [run_job, run_job_finalize, update_job_status, update_job_output, h]

/-- Witness for C1's amended theorem at concrete inputs.  The last conjunct
exercises the sequential fall-through of `extract_output_file`: on the line
`DONE: Wrote 1 entries to /f` the `DONE:` path `Wrote 1 entries to /f` does
not exist, but the `Wrote … entries to` pattern still fires and records
`/f`. -/
theorem run_job_terminal_record_witness :
    ((3 : Int) ≠ 0 ∧
      (run_job (fun _ => false) [] (.exited 3) ⟨"w1", .pending, none, none⟩).status
        = .failed ∧
      (run_job (fun _ => false) [] (.exited 3) ⟨"w1", .pending, none, none⟩).error
        = some ("Process exited with code " ++ toString (3 : Int))) ∧
    ("boom" ≠ "" ∧
      (run_job (fun _ => false) [] (.exception "boom") ⟨"w1", .pending, none, none⟩).status
        = .failed ∧
      (run_job (fun _ => false) [] (.exception "boom") ⟨"w1", .pending, none, none⟩).error
        = some "boom") ∧
    ((run_job (fun s => s == "/f") ["DONE: Wrote 1 entries to /f"] (.exited 0)
        ⟨"w1", .pending, none, none⟩).status = .completed ∧
      (run_job (fun s => s == "/f") ["DONE: Wrote 1 entries to /f"] (.exited 0)
        ⟨"w1", .pending, none, none⟩).output_file = some "/f") := by
  have h := run_job_terminal_record (fun _ => false) [] ⟨"w1", .pending, none, none⟩
  have h2 := run_job_terminal_record (fun s => s == "/f") ["DONE: Wrote 1 entries to /f"]
    ⟨"w1", .pending, none, none⟩
  have hlast : lastOutputFile (fun s => s == "/f") ["DONE: Wrote 1 entries to /f"]
      = some "/f" := by decide
  refine ⟨⟨by decide, h.1 3 (by decide)⟩, ⟨by decide, h.2.2.1 "boom" (by decide)⟩,
    h2.2.2.2.1, ?_⟩
  rw [h2.2.2.2.2.2, hlast]

/-- C1 counterexample to the claim as stated: a fresh job whose process exits
0 without any recognized output-marker line reaches the terminal status
`completed` with a null output file AND a null error — "either an output file
or a non-empty error" fails. -/
theorem run_job_completed_neither_counterexample :
    (run_job (fun _ => false) [] (.exited 0) ⟨"job1", .pending, none, none⟩).status
      = .completed ∧
    (run_job (fun _ => false) [] (.exited 0) ⟨"job1", .pending, none, none⟩).output_file
      = none ∧
    (run_job (fun _ => false) [] (.exited 0) ⟨"job1", .pending, none, none⟩).error
      = none := by
  refine ⟨rfl, rfl, rfl⟩

/-! ### C6: startup crash recovery -/

theorem failJob_id (j : JobRec) : (failJob j).id = j.id := rfl

theorem failJob_eq (j : JobRec) :
    failJob j = { j with status := .failed, error := some restartError } := by
  rw [failJob, update_job_status]
  simp [restartError]

theorem failJob_idem (j : JobRec) : failJob (failJob j) = failJob j := by
  simp [failJob_eq]

theorem foldl_update_store (ids : List String) :
    ∀ store : List JobRec,
      ids.foldl (fun st i => update_job_status_store st i .failed (some restartError)) store
        = store.map fun j => if j.id ∈ ids then failJob j else j := by
  induction ids with
  | nil =>
    intro store
    simp
  | cons i ids ih =>
    intro store
    rw [List.foldl_cons, ih, update_job_status_store, List.map_map]
    refine List.map_congr_left fun j _ => ?_
    by_cases hj : j.id = i
    · have hfj : update_job_status j .failed (some restartError) = failJob j := rfl
      simp only [Function.comp_apply]
      rw [if_pos hj, hfj, failJob_id, hj]
      rw [if_pos (List.mem_cons_self i ids)]
      by_cases hmem : i ∈ ids
      · rw [if_pos hmem, failJob_idem]
      · rw [if_neg hmem]
    · simp only [Function.comp_apply, if_neg hj, List.mem_cons]
      by_cases hmem : j.id ∈ ids
      · rw [if_pos hmem, if_pos (Or.inr hmem)]
      · rw [if_neg hmem, if_neg (by tauto)]

theorem startup_recover_eq (store : List JobRec) :
    startup_recover store
      = store.map fun j =>
          if j.id ∈ (get_running_jobs store).map (fun x => x.id) then failJob j else j := by
  rw [startup_recover, ← foldl_update_store, List.foldl_map]

/-- C6: after the startup recovery scan, no persisted job has status
`running`; the store keeps its shape, and every job that was `running`
before the scan is `failed` afterwards with the restart error message. -/
theorem startup_recover_spec (store : List JobRec) :
    (∀ j ∈ startup_recover store, j.status ≠ .running) ∧
    (startup_recover store).length = store.length ∧
    (∀ i : Nat, i < store.length → (store.getD i default).status = .running →
      (startup_recover store).getD i default
        = { store.getD i default with status := .failed, error := some restartError }) := by
  rw [startup_recover_eq]
  refine ⟨?_, by simp, ?_⟩
  · intro j hj
    obtain ⟨x, hx, rfl⟩ := List.mem_map.mp hj
    by_cases hmem : x.id ∈ (get_running_jobs store).map (fun y => y.id)
    · rw [if_pos hmem, failJob_eq]
      simp
    · rw [if_neg hmem]
      intro hrun
      apply hmem
      exact List.mem_map.mpr ⟨x, List.mem_filter.mpr ⟨hx, by simp [hrun]⟩, rfl⟩
  · intro i hi hrun
    have hgd : ∀ (l : List JobRec) (f : JobRec → JobRec), i < l.length →
        (l.map f).getD i default = f (l.getD i default) := by
      intro l f hl
      rw [List.getD_eq_getElem?_getD, List.getElem?_map, List.getD_eq_getElem?_getD]
      rw [List.getElem?_eq_getElem hl]
      rfl
    rw [hgd store _ hi]
    have helem : store.getD i default ∈ store := by
      rw [List.getD_eq_getElem?_getD, List.getElem?_eq_getElem hi]
      exact List.getElem_mem hi
    have hmem : (store.getD i default).id ∈ (get_running_jobs store).map (fun y => y.id) :=
      List.mem_map.mpr ⟨store.getD i default,
        List.mem_filter.mpr ⟨helem, by rw [hrun]; rfl⟩, rfl⟩
    rw [if_pos hmem, failJob_eq]

/-- Witness for C6 at a concrete store. -/
theorem startup_recover_spec_witness :
    (0 : Nat) < ([⟨"a", .running, none, none⟩,
        ⟨"b", .completed, some "f.mp4", none⟩] : List JobRec).length ∧
    (([⟨"a", .running, none, none⟩,
        ⟨"b", .completed, some "f.mp4", none⟩] : List JobRec).getD 0 default).status
      = .running ∧
    (startup_recover [⟨"a", .running, none, none⟩,
        ⟨"b", .completed, some "f.mp4", none⟩]).getD 0 default
      = { ([⟨"a", .running, none, none⟩,
            ⟨"b", .completed, some "f.mp4", none⟩] : List JobRec).getD 0 default with
          status := .failed, error := some restartError } :=
  ⟨by decide, by decide,
   (startup_recover_spec [⟨"a", .running, none, none⟩,
      ⟨"b", .completed, some "f.mp4", none⟩]).2.2 0 (by decide) (by decide)⟩

/-! ### C7: cadence inference -/

theorem usableDiffsSpec_cons (a b : Int) (rest : List Int) :
    usableDiffsSpec (a :: b :: rest)
      = if 0 < b - a ∧ b - a ≤ 60 then (b - a) :: usableDiffsSpec (b :: rest)
        else usableDiffsSpec (b :: rest) := by
  rw [usableDiffsSpec, usableDiffsSpec]
  simp only [List.tail_cons, List.zip_cons_cons, List.map_cons, List.filter_cons]
  by_cases h : 0 < b - a ∧ b - a ≤ 60
  · rw [if_pos (decide_eq_true h), if_pos h]
  · rw [if_neg (by simpa using h), if_neg h]

theorem usableDiffsLoop_some (l : List Int) :
    ∀ last, usableDiffsLoop (some last) l = usableDiffsSpec (last :: l) := by
  induction l with
  | nil => intro last; rfl
  | cons t rest ih =>
    intro last
    rw [usableDiffsLoop, usableDiffsSpec_cons, ih]

theorem usableDiffsLoop_none (ts : List Int) :
    usableDiffsLoop none ts = usableDiffsSpec ts := by
  cases ts with
  | nil => rfl
  | cons t rest =>
    rw [show usableDiffsLoop none (t :: rest) = usableDiffsLoop (some t) rest from rfl,
      usableDiffsLoop_some]

/-- C7 (amended): for the sorted disk index, the inferred cadence equals the
rounded median of the deltas between consecutive entry timestamps that are
greater than 0 and at most 60 seconds, and the cadence is null exactly when
NO usable delta exists (a single usable delta already yields a cadence). -/
theorem inferCadence_spec (entries : List Entry) :
    (inferCadence entries = none ↔
      usableDiffsSpec ((entries.insertionSort fun a b => a.1 ≤ b.1).map Prod.fst) = []) ∧
    (usableDiffsSpec ((entries.insertionSort fun a b => a.1 ≤ b.1).map Prod.fst) ≠ [] →
      inferCadence entries
        = some (pyRound (pyMedian
            (usableDiffsSpec ((entries.insertionSort fun a b => a.1 ≤ b.1).map
              Prod.fst))))) := by
  simp only [inferCadence, usableDiffsLoop_none]
  by_cases h : usableDiffsSpec ((entries.insertionSort fun a b => a.1 ≤ b.1).map
      Prod.fst) = []
  · simp [h]
  · simp [h]

/-- Witness for C7's amended theorem at a concrete index. -/
theorem inferCadence_spec_witness :
    usableDiffsSpec (([((0 : Int), "a"), (30, "b"), (61, "c")].insertionSort
        fun a b => a.1 ≤ b.1).map Prod.fst) ≠ [] ∧
    inferCadence [((0 : Int), "a"), (30, "b"), (61, "c")]
      = some (pyRound (pyMedian
          (usableDiffsSpec (([((0 : Int), "a"), (30, "b"), (61, "c")].insertionSort
            fun a b => a.1 ≤ b.1).map Prod.fst)))) :=
  ⟨by decide, (inferCadence_spec [((0 : Int), "a"), (30, "b"), (61, "c")]).2 (by decide)⟩

/-- C7 counterexample to the claim as stated: an index with exactly one
usable delta (fewer than two) still gets a non-null cadence — the code only
returns null when the delta list is empty. -/
theorem inferCadence_single_delta_counterexample :
    inferCadence [((0 : Int), "a"), (30, "b")] = some 30 ∧
    (usableDiffsSpec (([((0 : Int), "a"), (30, "b")].insertionSort
        fun a b => a.1 ≤ b.1).map Prod.fst)).length = 1 := by
  constructor
  · have h2 : usableDiffsLoop none
        ((([((0 : Int), "a"), (30, "b")] : List Entry).insertionSort
          fun a b => a.1 ≤ b.1).map Prod.fst) = [30] := by decide
    simp only [inferCadence]
    rw [h2, if_neg (by decide)]
    have h3 : pyMedian [30] = ((30 : Int) : ℚ) := rfl
    rw [h3, pyRound_intCast]
  · decide

/-! ### C5: progress-line classification -/

/-- C5 (amended): a line containing `Progress: 45.0%` yields percent 45.0; a
line `Progress: 1234/5678` yields percent 1234/5678 × 100 ≈ 21.7; and a line
matching no pattern rule keeps the current phase and percent, updating only
the message — but only when the stripped line is non-empty and does not start
with `[`; otherwise the progress (message included) is returned unchanged. -/
theorem parse_progress_spec :
    (∀ current : JobProgress,
      parse_progress "Progress: 45.0%" current
        = some ⟨pyOrString current.phase "render", 45, "Progress: 45.0%"⟩) ∧
    (∀ current : JobProgress,
      parse_progress "Progress: 1234/5678" current
        = some ⟨pyOrString current.phase "process", (1234 : ℚ) / 5678 * 100,
            "Progress: 1234/5678"⟩) ∧
    |(1234 : ℚ) / 5678 * 100 - 217/10| < 1/10 ∧
    (∀ (line : String) (current : JobProgress),
      noRuleMatch (pyStripChars line.toList) →
      parse_progress line current
        = if pyStripChars line.toList ≠ [] ∧ (pyStripChars line.toList).headD ' ' ≠ '[' then
            some ⟨current.phase, current.percent, String.mk (pyStripChars line.toList)⟩
          else some current) := by
  refine ⟨fun current => ?_, fun current => ?_, ?_, fun line current h => ?_⟩
  · have e1 : scanFirst matchPercentAt (pyStripChars ("Progress: 45.0%".toList))
        = some ['4', '5', '.', '0'] := rfl
    have e2 : parsePyFloat ['4', '5', '.', '0']
        = some (((45 : ℕ) : ℚ) + ((0 : ℕ) : ℚ) / (10 : ℚ) ^ (1 : ℕ)) := rfl
    simp only [parse_progress, e1, e2]
    refine congrArg some ?_
    have hmin : min (100 : ℚ) (((45 : ℕ) : ℚ) + ((0 : ℕ) : ℚ) / (10 : ℚ) ^ (1 : ℕ)) = 45 := by
      rw [min_eq_right (by norm_num)]
      norm_num
    rw [hmin]
    rfl
  · have e1 : scanFirst matchPercentAt (pyStripChars ("Progress: 1234/5678".toList))
        = none := rfl
    have e2 : scanFirst matchCountAt (pyStripChars ("Progress: 1234/5678".toList))
        = some (['1', '2', '3', '4'], ['5', '6', '7', '8']) := rfl
    simp only [parse_progress, e1, e2]
    refine congrArg some ?_
    have hd1 : digitsVal ['1', '2', '3', '4'] = 1234 := rfl
    have hd2 : digitsVal ['5', '6', '7', '8'] = 5678 := rfl
    rw [hd1, hd2, if_pos (by norm_num : 0 < (5678 : ℕ))]
    have hmin : min (100 : ℚ) (((1234 : ℕ) : ℚ) / ((5678 : ℕ) : ℚ) * 100)
        = (1234 : ℚ) / 5678 * 100 := by
      push_cast
      rw [min_eq_right (by norm_num)]
    rw [hmin]
    rfl
  · rw [abs_of_pos (by norm_num)]
    norm_num
  · rw [noRuleMatch] at h
    obtain ⟨hP, hC, hE, hEn, hk1, hk2, hk3, hk4, hk5⟩ := h
    simp only [parse_progress, hP, hC, hE, hEn, hk1, hk2, hk3, hk4, hk5,
      Bool.false_eq_true, if_false]

/-- Witness for C5's amended theorem on an unmatched, non-bracketed line. -/
theorem parse_progress_spec_witness :
    noRuleMatch (pyStripChars "hello world".toList) ∧
    parse_progress "hello world" ⟨"render", 10, "old"⟩
      = some ⟨"render", 10, "hello world"⟩ := by
  refine ⟨by decide, ?_⟩
  have h := parse_progress_spec.2.2.2 "hello world" ⟨"render", 10, "old"⟩ (by decide)
  simpa using h

/-- C5 counterexample to the claim as stated: the line `[note]` matches no
pattern rule, yet `parse_progress` does NOT update the message (lines
starting with `[` leave the progress wholly unchanged). -/
theorem parse_progress_unmatched_counterexample :
    noRuleMatch (pyStripChars "[note]".toList) ∧
    parse_progress "[note]" ⟨"render", 50, "old message"⟩
      = some ⟨"render", 50, "old message"⟩ ∧
    ("old message" : String) ≠ "[note]" :=
  ⟨by decide, rfl, by decide⟩

/-! ### Binary search correctness (shared by C3 and C10) -/

theorem getD_eq_getElem {α : Type} (l : List α) (d : α) {k : Nat} (h : k < l.length) :
    l.getD k d = l[k] := by
  rw [List.getD_eq_getElem?_getD, List.getElem?_eq_getElem h]
  rfl

theorem pairwise_tsD_mono (index : List Entry)
    (hs : index.Pairwise fun a b => a.1 ≤ b.1) :
    ∀ i j : Nat, i ≤ j → j < index.length → tsD index i ≤ tsD index j := by
  intro i j hij hj
  rcases eq_or_lt_of_le hij with rfl | hlt
  · exact le_refl _
  · have hi : i < index.length := lt_trans hlt hj
    have := List.pairwise_iff_getElem.mp hs i j hi hj hlt
    rw [tsD, tsD, getD_eq_getElem _ _ hi, getD_eq_getElem _ _ hj]
    exact this

theorem bsearchLoop_spec (index : List Entry) (s : Int)
    (hmono : ∀ i j : Nat, i ≤ j → j < index.length → tsD index i ≤ tsD index j) :
    ∀ lo hi pos : Int,
      0 ≤ lo → hi ≤ (index.length : Int) - 1 →
      (pos = -1 ∨
        (0 ≤ pos ∧ pos < lo ∧ pos < (index.length : Int) ∧ tsD index pos.toNat ≤ s)) →
      (∀ j : Int, 0 ≤ j → j < (index.length : Int) → tsD index j.toNat ≤ s →
        (j ≤ pos ∨ (lo ≤ j ∧ j ≤ hi))) →
      ((bsearchLoop index s lo hi pos = -1 ∨
        (0 ≤ bsearchLoop index s lo hi pos ∧
          bsearchLoop index s lo hi pos < (index.length : Int) ∧
          tsD index (bsearchLoop index s lo hi pos).toNat ≤ s)) ∧
        (∀ j : Int, 0 ≤ j → j < (index.length : Int) → tsD index j.toNat ≤ s →
          j ≤ bsearchLoop index s lo hi pos)) := by
  intro lo hi pos
  induction lo, hi, pos using bsearchLoop.induct index s with
  | case1 lo hi pos h h2 ih =>
    intro hlo hhi hval hcomp
    have heq : bsearchLoop index s lo hi pos
        = bsearchLoop index s ((lo + hi) / 2 + 1) hi ((lo + hi) / 2) := by
      rw [bsearchLoop, if_pos h, if_pos h2]
    rw [heq]
    have hts : tsD index ((lo + hi) / 2).toNat ≤ s := h2
    refine ih ?_ hhi ?_ ?_
    · omega
    · exact Or.inr ⟨by omega, by omega, by omega, hts⟩
    · intro j hj0 hjn hjts
      rcases hcomp j hj0 hjn hjts with hj | ⟨hlj, hjh⟩
      · rcases hval with rfl | ⟨_, hpl, _, _⟩ <;> [left; left] <;> omega
      · by_cases hjm : j ≤ (lo + hi) / 2
        · left; exact hjm
        · right; omega
  | case2 lo hi pos h h2 ih =>
    intro hlo hhi hval hcomp
    have heq : bsearchLoop index s lo hi pos
        = bsearchLoop index s lo ((lo + hi) / 2 - 1) pos := by
      rw [bsearchLoop, if_pos h, if_neg h2]
    rw [heq]
    have hmid : ¬ tsD index ((lo + hi) / 2).toNat ≤ s := h2
    refine ih hlo ?_ ?_ ?_
    · omega
    · exact hval
    · intro j hj0 hjn hjts
      rcases hcomp j hj0 hjn hjts with hj | ⟨hlj, hjh⟩
      · left; exact hj
      · right
        refine ⟨hlj, ?_⟩
        by_contra hcon
        have hmj : (lo + hi) / 2 ≤ j := by omega
        have := hmono ((lo + hi) / 2).toNat j.toNat (by omega) (by omega)
        exact hmid (le_trans this hjts)
  | case3 lo hi pos h =>
    intro hlo hhi hval hcomp
    have heq : bsearchLoop index s lo hi pos = pos := by
      rw [bsearchLoop, if_neg h]
    rw [heq]
    constructor
    · rcases hval with rfl | ⟨h1, _, h3, h4⟩
      · exact Or.inl rfl
      · exact Or.inr ⟨h1, h3, h4⟩
    · intro j hj0 hjn hjts
      rcases hcomp j hj0 hjn hjts with hj | ⟨hlj, hjh⟩
      · exact hj
      · omega

theorem selectPos_spec (index : List Entry) (s : Int)
    (hs : index.Pairwise fun a b => a.1 ≤ b.1) :
    (selectPos index s = -1 ∨
      (0 ≤ selectPos index s ∧ selectPos index s < (index.length : Int) ∧
        tsD index (selectPos index s).toNat ≤ s)) ∧
    (∀ j : Int, 0 ≤ j → j < (index.length : Int) → tsD index j.toNat ≤ s →
      j ≤ selectPos index s) := by
  rw [selectPos]
  exact bsearchLoop_spec index s (pairwise_tsD_mono index hs) 0 ((index.length : Int) - 1)
    (-1) (by omega) (by omega) (Or.inl rfl)
    (fun j hj0 hjn _ => Or.inr ⟨hj0, by omega⟩)

/-- When some entry starts at or before the segment start, the binary search
returns a valid position. -/
theorem selectPos_nonneg (index : List Entry) (s : Int)
    (hs : index.Pairwise fun a b => a.1 ≤ b.1)
    (hex : ∃ x ∈ index, x.1 ≤ s) : 0 ≤ selectPos index s := by
  obtain ⟨x, hx, hxs⟩ := hex
  obtain ⟨k, hk, hkx⟩ := List.getElem_of_mem hx
  have hts : tsD index k ≤ s := by
    rw [tsD, getD_eq_getElem _ _ hk, hkx]
    exact hxs
  have := (selectPos_spec index s hs).2 k (by omega) (by omega)
    (by rwa [Int.toNat_natCast])
  omega

/-- When every entry starts strictly after the segment start, the binary
search fails (`pos = -1`). -/
theorem selectPos_neg (index : List Entry) (s : Int)
    (hs : index.Pairwise fun a b => a.1 ≤ b.1)
    (hall : ∀ x ∈ index, s < x.1) : selectPos index s = -1 := by
  rcases (selectPos_spec index s hs).1 with h | ⟨h1, h2, h3⟩
  · exact h
  · exfalso
    have hk : (selectPos index s).toNat < index.length := by omega
    have hmem : index.getD (selectPos index s).toNat (0, "") ∈ index := by
      rw [getD_eq_getElem _ _ hk]
      exact List.getElem_mem hk
    exact absurd h3 (not_le.mpr (hall _ hmem))

/-! ### Selection structure (shared by C3, C4 and C10) -/

theorem selection_eq (index : List Entry) (pos : Nat) (e : Int)
    (hpos : pos < index.length) :
    (selection index pos e = [index[pos]] ∧ ¬ (index[pos]).1 < e) ∨
    (selection index pos e = (index.drop pos).takeWhile (fun x => x.1 < e) ∧
      (index.drop pos).takeWhile (fun x => x.1 < e)
        = index[pos] :: (index.drop (pos + 1)).takeWhile (fun x => x.1 < e) ∧
      (index[pos]).1 < e) := by
  have hd : index.drop pos = index[pos] :: index.drop (pos + 1) :=
    List.drop_eq_getElem_cons hpos
  by_cases hp : (index[pos]).1 < e
  · right
    have ht : (index.drop pos).takeWhile (fun x => x.1 < e)
        = index[pos] :: (index.drop (pos + 1)).takeWhile (fun x => x.1 < e) := by
      rw [hd, List.takeWhile_cons, if_pos (decide_eq_true hp)]
    refine ⟨?_, ht, hp⟩
    rw [selection, if_neg (by rw [ht]; exact List.cons_ne_nil _ _)]
  · left
    have ht : (index.drop pos).takeWhile (fun x => x.1 < e) = [] := by
      rw [hd, List.takeWhile_cons, if_neg (by simpa using hp)]
    refine ⟨?_, hp⟩
    rw [selection, if_pos ht, getD_eq_getElem _ _ hpos]

theorem selection_ne_nil (index : List Entry) (pos : Nat) (e : Int)
    (hpos : pos < index.length) : selection index pos e ≠ [] := by
  rcases selection_eq index pos e hpos with ⟨h, _⟩ | ⟨h, ht, _⟩
  · rw [h]; exact List.cons_ne_nil _ _
  · rw [h, ht]; exact List.cons_ne_nil _ _

theorem selection_isInfix (index : List Entry) (pos : Nat) (e : Int)
    (hpos : pos < index.length) : selection index pos e <:+: index := by
  have hsuf : index.drop pos <:+ index := List.drop_suffix pos index
  rcases selection_eq index pos e hpos with ⟨h, _⟩ | ⟨h, _, _⟩
  · rw [h]
    have hd : index.drop pos = index[pos] :: index.drop (pos + 1) :=
      List.drop_eq_getElem_cons hpos
    have hpre : [index[pos]] <+: index.drop pos := ⟨index.drop (pos + 1), by rw [hd]; rfl⟩
    exact hpre.isInfix.trans hsuf.isInfix
  · rw [h]
    have hpre := List.takeWhile_prefix (l := index.drop pos) (fun x => decide (x.1 < e))
    exact hpre.isInfix.trans hsuf.isInfix

theorem selection_head (index : List Entry) (pos : Nat) (e : Int)
    (hpos : pos < index.length) :
    (selection index pos e).getD 0 (0, "") = index[pos] := by
  rcases selection_eq index pos e hpos with ⟨h, _⟩ | ⟨h, ht, _⟩
  · rw [h]; rfl
  · rw [h, ht]; rfl

theorem selection_tail_lt (index : List Entry) (pos : Nat) (e : Int)
    (hpos : pos < index.length) :
    ∀ x ∈ (selection index pos e).tail, x.1 < e := by
  rcases selection_eq index pos e hpos with ⟨h, _⟩ | ⟨h, _, _⟩
  · rw [h]
    intro x hx
    exact absurd hx (List.not_mem_nil x)
  · rw [h]
    intro x hx
    have hx' : x ∈ (index.drop pos).takeWhile (fun x => x.1 < e) :=
      List.mem_of_mem_tail hx
    have := List.mem_takeWhile_imp hx'
    exact of_decide_eq_true this

/-- Inverts a successful `find_files_for_segment`: the index is non-empty,
the binary search found a position, and the returned list is the selection
walk from that position. -/
theorem find_ok_elim {index : List Entry} {cadence : Option Int}
    {segStart segEnd : Int} {sm em : ℚ} {sel : List Entry}
    (hok : find_files_for_segment index cadence segStart segEnd sm em = .ok sel) :
    index ≠ [] ∧ 0 ≤ selectPos index segStart ∧
    sel = selection index (selectPos index segStart).toNat segEnd := by
  by_cases hni : index = []
  · rw [find_files_for_segment, if_pos hni] at hok
    exact absurd hok (by simp)
  · rw [find_files_for_segment, if_neg hni] at hok
    simp only [] at hok
    by_cases hpos : selectPos index segStart < 0
    · rw [if_pos hpos] at hok
      exact absurd hok (by simp)
    · rw [if_neg hpos] at hok
      refine ⟨hni, by omega, ?_⟩
      cases cadence with
      | none =>
        dsimp only [] at hok
        injection hok with h
        exact h.symm
      | some c =>
        dsimp only [] at hok
        by_cases h1 : segStart
            > ((selection index (selectPos index segStart).toNat segEnd).getD 0 (0, "")).1
              + pyRound (sm * c)
        · rw [if_pos h1] at hok
          exact absurd hok (by simp)
        · rw [if_neg h1] at hok
          by_cases h2 : segEnd
              > ((selection index (selectPos index segStart).toNat segEnd).getD
                  ((selection index (selectPos index segStart).toNat segEnd).length - 1)
                  (0, "")).1 + pyRound (em * c)
          · rw [if_pos h2] at hok
            exact absurd hok (by simp)
          · rw [if_neg h2] at hok
            injection hok with h
            exact h.symm

/-- A successful selection is never empty (shared by C4 and C10). -/
theorem find_ok_ne_nil {index : List Entry} {cadence : Option Int}
    {segStart segEnd : Int} {sm em : ℚ} {sel : List Entry}
    (hsorted : index.Pairwise fun a b => a.1 ≤ b.1)
    (hok : find_files_for_segment index cadence segStart segEnd sm em = .ok sel) :
    sel ≠ [] := by
  obtain ⟨hni, hpos, hsel⟩ := find_ok_elim hok
  have hlt : (selectPos index segStart).toNat < index.length := by
    rcases (selectPos_spec index segStart hsorted).1 with h | ⟨_, h2, _⟩
    · omega
    · omega
  rw [hsel]
  exact selection_ne_nil index _ segEnd hlt

/-- C10: whenever `find_files_for_segment` returns a selected file list, that
list is non-empty, is a contiguous run of consecutive entries of the sorted
index, is ascending in timestamp, its first entry's timestamp is at most the
segment start, and every selected entry after the first has timestamp
strictly below the segment end. -/
theorem find_files_selection_props (index : List Entry) (cadence : Option Int)
    (segStart segEnd : Int) (sm em : ℚ) (sel : List Entry)
    (hsorted : index.Pairwise fun a b => a.1 ≤ b.1)
    (hok : find_files_for_segment index cadence segStart segEnd sm em = .ok sel) :
    sel ≠ [] ∧ sel <:+: index ∧ (sel.Chain' fun a b => a.1 ≤ b.1) ∧
    (sel.getD 0 (0, "")).1 ≤ segStart ∧ (∀ x ∈ sel.tail, x.1 < segEnd) := by
  obtain ⟨hni, hpos, hsel⟩ := find_ok_elim hok
  have hvalid := (selectPos_spec index segStart hsorted).1
  have hlt : (selectPos index segStart).toNat < index.length := by
    rcases hvalid with h | ⟨_, h2, _⟩ <;> omega
  have hts : tsD index (selectPos index segStart).toNat ≤ segStart := by
    rcases hvalid with h | ⟨_, _, h3⟩
    · omega
    · exact h3
  subst hsel
  refine ⟨selection_ne_nil index _ segEnd hlt, selection_isInfix index _ segEnd hlt,
    ?_, ?_, selection_tail_lt index _ segEnd hlt⟩
  · have hsub := (selection_isInfix index _ segEnd hlt).sublist
    exact (hsorted.sublist hsub).chain'
  · rw [selection_head index _ segEnd hlt]
    rw [tsD, getD_eq_getElem _ _ hlt] at hts
    exact hts

/-- Witness for C10 at a concrete sorted index (cadence unknown, so no
tolerance check applies). -/
theorem find_files_selection_props_witness :
    ([((0 : Int), "a"), (10, "b"), (20, "c")].Pairwise
        fun a b : Entry => a.1 ≤ b.1) ∧
    find_files_for_segment [((0 : Int), "a"), (10, "b"), (20, "c")] none 5 15 2 4
      = .ok [((0 : Int), "a"), (10, "b")] ∧
    ([((0 : Int), "a"), (10, "b")] : List Entry) ≠ [] ∧
    ([((0 : Int), "a"), (10, "b")] : List Entry)
      <:+: [((0 : Int), "a"), (10, "b"), (20, "c")] ∧
    (([((0 : Int), "a"), (10, "b")] : List Entry).Chain' fun a b => a.1 ≤ b.1) ∧
    (([((0 : Int), "a"), (10, "b")] : List Entry).getD 0 (0, "")).1 ≤ 5 ∧
    (∀ x ∈ ([((0 : Int), "a"), (10, "b")] : List Entry).tail, x.1 < 15) := by
  have hs : ([((0 : Int), "a"), (10, "b"), (20, "c")].Pairwise
      fun a b : Entry => a.1 ≤ b.1) := by decide
  have hok : find_files_for_segment [((0 : Int), "a"), (10, "b"), (20, "c")] none 5 15 2 4
      = .ok [((0 : Int), "a"), (10, "b")] := by
    have hbs : selectPos [((0 : Int), "a"), (10, "b"), (20, "c")] 5 = 0 := by
      rw [selectPos]
      rw [bsearchLoop]; norm_num
      rw [bsearchLoop]; norm_num
      rw [bsearchLoop]; norm_num
    rw [find_files_for_segment, if_neg (by decide)]
    simp only [hbs]
    norm_num [selection]
    decide
  exact ⟨hs, hok,
    (find_files_selection_props _ none 5 15 2 4 _ hs hok).1,
    (find_files_selection_props _ none 5 15 2 4 _ hs hok).2.1,
    (find_files_selection_props _ none 5 15 2 4 _ hs hok).2.2.1,
    (find_files_selection_props _ none 5 15 2 4 _ hs hok).2.2.2.1,
    (find_files_selection_props _ none 5 15 2 4 _ hs hok).2.2.2.2⟩

/-! ### C3: disk-resolution tolerance -/

/-- A string with a nonempty final piece is nonempty. -/
theorem append_ne_empty_right (s t : String) (ht : t.length ≠ 0) : s ++ t ≠ "" := by
  intro he
  have hlen := congrArg String.length he
  rw [String.length_append] at hlen
  simp only [String.length_empty] at hlen
  omega

/-- Every rejection reason produced by `find_files_for_segment` is a
non-empty string. -/
theorem find_error_reason_ne {index : List Entry} {cadence : Option Int}
    {segStart segEnd : Int} {sm em : ℚ} {r : String}
    (herr : find_files_for_segment index cadence segStart segEnd sm em = .error r) :
    r ≠ "" := by
  by_cases hni : index = []
  · rw [find_files_for_segment, if_pos hni] at herr
    injection herr with h
    rw [← h]; decide
  · rw [find_files_for_segment, if_neg hni] at herr
    simp only [] at herr
    by_cases hpos : selectPos index segStart < 0
    · rw [if_pos hpos] at herr
      injection herr with h
      rw [← h]; decide
    · rw [if_neg hpos] at herr
      cases cadence with
      | none =>
        dsimp only [] at herr
        exact absurd herr (by simp)
      | some c =>
        dsimp only [] at herr
        by_cases h1 : segStart
            > ((selection index (selectPos index segStart).toNat segEnd).getD 0 (0, "")).1
              + pyRound (sm * c)
        · rw [if_pos h1] at herr
          injection herr with h
          rw [← h]
          exact append_ne_empty_right _ _ (by decide)
        · rw [if_neg h1] at herr
          by_cases h2 : segEnd
              > ((selection index (selectPos index segStart).toNat segEnd).getD
                  ((selection index (selectPos index segStart).toNat segEnd).length - 1)
                  (0, "")).1 + pyRound (em * c)
          · rw [if_pos h2] at herr
            injection herr with h
            rw [← h]
            exact append_ne_empty_right _ _ (by decide)
          · rw [if_neg h2] at herr
            exact absurd herr (by simp)

/-- C3 (amended): for a non-empty sorted index with a known cadence, when no
chunk starts at or before the segment start the segment is rejected with a
(non-empty) reason; when some chunk does, disk resolution succeeds exactly
when the segment start is at most `round(start_slop × cadence)` after the
first selected chunk and the segment end is at most
`round(end_slop × cadence)` after the last selected chunk (`round` =
half-to-even, the integer tolerance the code computes); every rejection
carries a non-empty reason string. -/
theorem find_files_tolerance_spec (index : List Entry) (c : Int)
    (segStart segEnd : Int) (sm em : ℚ) (hne : index ≠ [])
    (hsorted : index.Pairwise fun a b => a.1 ≤ b.1) :
    ((∀ x ∈ index, segStart < x.1) →
      find_files_for_segment index (some c) segStart segEnd sm em
        = .error "no chunk starts before segment start") ∧
    ((∃ x ∈ index, x.1 ≤ segStart) →
      ((∃ files, find_files_for_segment index (some c) segStart segEnd sm em
          = .ok files) ↔
        (segStart ≤ ((selection index (selectPos index segStart).toNat segEnd).getD 0
            (0, "")).1 + pyRound (sm * c) ∧
          segEnd ≤ ((selection index (selectPos index segStart).toNat segEnd).getD
            ((selection index (selectPos index segStart).toNat segEnd).length - 1)
            (0, "")).1 + pyRound (em * c)))) ∧
    (∀ r, find_files_for_segment index (some c) segStart segEnd sm em = .error r →
      r ≠ "") := by
  refine ⟨fun hall => ?_, fun hex => ?_, fun r herr => find_error_reason_ne herr⟩
  · have hneg := selectPos_neg index segStart hsorted hall
    rw [find_files_for_segment, if_neg hne]
    simp only []
    rw [if_pos (by omega : selectPos index segStart < 0)]
  · have hpos := selectPos_nonneg index segStart hsorted hex
    rw [find_files_for_segment, if_neg hne]
    dsimp only []
    rw [if_neg (by omega : ¬ selectPos index segStart < 0)]
    by_cases h1 : segStart
        > ((selection index (selectPos index segStart).toNat segEnd).getD 0 (0, "")).1
          + pyRound (sm * c)
    · rw [if_pos h1]
      constructor
      · rintro ⟨files, hf⟩
        exact absurd hf (by simp)
      · rintro ⟨hc1, _⟩
        omega
    · rw [if_neg h1]
      by_cases h2 : segEnd
          > ((selection index (selectPos index segStart).toNat segEnd).getD
              ((selection index (selectPos index segStart).toNat segEnd).length - 1)
              (0, "")).1 + pyRound (em * c)
      · rw [if_pos h2]
        constructor
        · rintro ⟨files, hf⟩
          exact absurd hf (by simp)
        · rintro ⟨_, hc2⟩
          omega
      · rw [if_neg h2]
        exact ⟨fun _ => ⟨by omega, by omega⟩, fun _ => ⟨_, rfl⟩⟩

/-- Witness for C3's amended theorem at the spec's example parameters
(cadence 30, slops 2.0 and 4.0). -/
theorem find_files_tolerance_spec_witness :
    (∃ x ∈ ([((0 : Int), "a"), (30, "b")] : List Entry), x.1 ≤ 50) ∧
    ((∃ files, find_files_for_segment [((0 : Int), "a"), (30, "b")] (some 30) 50 70 2 4
        = .ok files) ↔
      ((50 : Int) ≤ ((selection [((0 : Int), "a"), (30, "b")]
          (selectPos [((0 : Int), "a"), (30, "b")] 50).toNat 70).getD 0 (0, "")).1
          + pyRound (2 * ((30 : Int) : ℚ)) ∧
        (70 : Int) ≤ ((selection [((0 : Int), "a"), (30, "b")]
          (selectPos [((0 : Int), "a"), (30, "b")] 50).toNat 70).getD
            ((selection [((0 : Int), "a"), (30, "b")]
              (selectPos [((0 : Int), "a"), (30, "b")] 50).toNat 70).length - 1)
            (0, "")).1 + pyRound (4 * ((30 : Int) : ℚ)))) :=
  ⟨by decide,
   (find_files_tolerance_spec [((0 : Int), "a"), (30, "b")] 30 50 70 2 4
      (by decide) (by decide)).2.1 (by decide)⟩

/-- C3 counterexample to the claim as stated: with cadence 32 and start slop
123/64 (an exact IEEE-754 double), the code's tolerance is
`round(123/64 × 32) = round(61.5) = 62` (half-to-even), so a segment whose
start is 62 s after the first selected chunk still resolves to disk even
though 62 exceeds `start_slop × cadence = 61.5` — the claim's unrounded
condition says it should be rejected. -/
theorem find_files_rounded_tolerance_counterexample :
    find_files_for_segment [((0 : Int), "f")] (some 32) 62 63 (123/64) 4
      = .ok [((0 : Int), "f")] ∧
    ¬ ((62 : ℚ) ≤ (((0 : Int) : ℚ)) + 123/64 * ((32 : Int) : ℚ)) := by
  constructor
  · have hbs : selectPos [((0 : Int), "f")] 62 = 0 := by
      rw [selectPos]
      rw [bsearchLoop]; norm_num
      rw [bsearchLoop]; norm_num
    have hsel : selection [((0 : Int), "f")] 0 63 = [((0 : Int), "f")] := by decide
    have ht1 : pyRound ((123/64 : ℚ) * ((32 : Int) : ℚ)) = 62 := by
      have h1 : (123/64 : ℚ) * ((32 : Int) : ℚ) = 123/2 := by push_cast; norm_num
      rw [h1]
      have hf : ⌊(123/2 : ℚ)⌋ = 61 := by
        rw [Int.floor_eq_iff]
        constructor <;> norm_num
      exact pyRound_eq_of_half_odd hf (by norm_num) (by decide)
    have ht2 : pyRound ((4 : ℚ) * ((32 : Int) : ℚ)) = 128 := by
      have h1 : (4 : ℚ) * ((32 : Int) : ℚ) = ((128 : Int) : ℚ) := by push_cast; norm_num
      rw [h1, pyRound_intCast]
    rw [find_files_for_segment, if_neg (by decide)]
    dsimp only []
    rw [hbs]
    rw [if_neg (by norm_num)]
    rw [show ((0 : Int)).toNat = 0 from rfl, hsel, ht1, ht2]
    norm_num
  · push_cast
    norm_num

/-! ### C4: per-segment resolution and the VOD fallback -/

theorem foldl_fun_congr {α β : Type} {f g : β → α → β} (hfg : ∀ b a, f b a = g b a) :
    ∀ (l : List α) (init : β), l.foldl f init = l.foldl g init := by
  intro l
  induction l with
  | nil => intro init; rfl
  | cons x xs ih =>
    intro init
    rw [List.foldl_cons, List.foldl_cons, hfg, ih]

theorem foldl_filterMap_pair {α β γ : Type} (f : α → Option β) (g : α → Option γ) :
    ∀ (l : List α) (acc : List β × List γ),
      l.foldl (accStep f g) acc = (acc.1 ++ l.filterMap f, acc.2 ++ l.filterMap g) := by
  intro l
  induction l with
  | nil => intro acc; simp
  | cons x xs ih =>
    intro acc
    rw [List.foldl_cons, ih, List.filterMap_cons, List.filterMap_cons, accStep]
    cases hf : f x <;> cases hg : g x <;> simp [hf, hg]

theorem filterMap_always_some {α β : Type} (f : α → β) (l : List α) :
    l.filterMap (fun x => some (f x)) = l.map f := by
  induction l with
  | nil => rfl
  | cons x xs ih =>
    rw [List.filterMap_cons, List.map_cons]
    dsimp only []
    rw [ih]

theorem filterMap_always_none {α γ : Type} (l : List α) :
    l.filterMap (fun _ => (none : Option γ)) = [] := by
  induction l with
  | nil => rfl
  | cons x xs ih => rw [List.filterMap_cons]; exact ih

/-- The resolution loop in closed form: in VOD mode every segment becomes a
VOD entry and nothing is skipped; in disk mode a segment becomes a disk
entry exactly when `find_files_for_segment` succeeds and is otherwise
recorded in `disk_failures` with its reason. -/
theorem resolve_run_eq (argsVod : Bool) (disk_index : List Entry)
    (cadence : Option Int) (disk_err : Option String) (base_url camera : String)
    (startSlop endSlop : ℚ) (segments : List (Int × Int)) :
    resolve_run argsVod disk_index cadence disk_err base_url camera startSlop endSlop
        segments
      = if argsVod || decide (disk_index = []) then
          (segments.map (vodEntry base_url camera), [])
        else
          (segments.filterMap (diskResolve disk_index cadence startSlop endSlop),
            segments.filterMap (diskFailure disk_index cadence startSlop endSlop)) := by
  rw [resolve_run]
  by_cases hv : (argsVod || decide (disk_index = [])) = true
  · rw [if_pos hv]
    have hext := foldl_fun_congr
      (f := fun (acc : List ResolvedEntry × List (Int × Int × Option String)) seg =>
        if argsVod || decide (disk_index = []) then
          (acc.1 ++ [⟨seg.1, seg.2,
            .vod (vod_url base_url camera seg.1 seg.2) "source=vod"⟩], acc.2)
        else if disk_index = [] then
          (acc.1, acc.2 ++ [(seg.1, seg.2, some (pyOrOpt disk_err "disk disabled"))])
        else
          match find_files_for_segment disk_index cadence seg.1 seg.2 startSlop endSlop
            with
          | .ok chosen =>
            if chosen = [] then (acc.1, acc.2 ++ [(seg.1, seg.2, (none : Option String))])
            else (acc.1 ++ [⟨seg.1, seg.2, .disk (chosen.map Prod.snd) cadence⟩], acc.2)
          | .error r => (acc.1, acc.2 ++ [(seg.1, seg.2, some r)]))
      (g := accStep (fun seg => some (vodEntry base_url camera seg))
        (fun _ => (none : Option (Int × Int × Option String))))
      (fun acc seg => by
        rw [accStep]
        dsimp only []
        rw [if_pos hv, vodEntry]) segments ([], [])
    rw [hext, foldl_filterMap_pair (fun seg => some (vodEntry base_url camera seg))
      (fun _ => (none : Option (Int × Int × Option String))),
      filterMap_always_some, filterMap_always_none]
    simp
  · have hvf : (argsVod || decide (disk_index = [])) = false := by
      revert hv
      cases argsVod || decide (disk_index = []) <;> simp
    have hne : disk_index ≠ [] := by
      rcases Bool.or_eq_false_iff.mp hvf with ⟨_, hd⟩
      exact of_decide_eq_false hd
    rw [if_neg (by rw [hvf]; simp)]
    have hext := foldl_fun_congr
      (f := fun (acc : List ResolvedEntry × List (Int × Int × Option String)) seg =>
        if argsVod || decide (disk_index = []) then
          (acc.1 ++ [⟨seg.1, seg.2,
            .vod (vod_url base_url camera seg.1 seg.2) "source=vod"⟩], acc.2)
        else if disk_index = [] then
          (acc.1, acc.2 ++ [(seg.1, seg.2, some (pyOrOpt disk_err "disk disabled"))])
        else
          match find_files_for_segment disk_index cadence seg.1 seg.2 startSlop endSlop
            with
          | .ok chosen =>
            if chosen = [] then (acc.1, acc.2 ++ [(seg.1, seg.2, (none : Option String))])
            else (acc.1 ++ [⟨seg.1, seg.2, .disk (chosen.map Prod.snd) cadence⟩], acc.2)
          | .error r => (acc.1, acc.2 ++ [(seg.1, seg.2, some r)]))
      (g := accStep (diskResolve disk_index cadence startSlop endSlop)
        (diskFailure disk_index cadence startSlop endSlop))
      (fun acc seg => by
        rw [accStep]
        dsimp only []
        rw [if_neg hv, if_neg hne]
        rw [diskResolve, diskFailure]
        cases hfind : find_files_for_segment disk_index cadence seg.1 seg.2 startSlop
            endSlop with
        | ok ch =>
          dsimp only []
          by_cases hch : ch = [] <;> simp [hch]
        | error r => rfl)
      segments ([], [])
    rw [hext, foldl_filterMap_pair (diskResolve disk_index cadence startSlop endSlop)
      (diskFailure disk_index cadence startSlop endSlop)]
    simp

/-- C4 (amended): a segment whose disk resolution is rejected is OMITTED from
the manifest (no source entry at all) and recorded in `disk_failures` with a
non-empty reason; only when VOD mode is in force — requested explicitly or
forced by an empty disk index — does every segment get a
`{type: vod, url, reason}` entry whose URL comes from the fixed template
(`vodEntry`/`vod_url`) with reason `"source=vod"`. -/
theorem resolve_fallback_spec (argsVod : Bool) (disk_index : List Entry)
    (cadence : Option Int) (disk_err : Option String) (base_url camera : String)
    (startSlop endSlop : ℚ) (segments : List (Int × Int))
    (hsorted : disk_index.Pairwise fun a b => a.1 ≤ b.1) :
    ((argsVod = true ∨ disk_index = []) →
      (resolve_run argsVod disk_index cadence disk_err base_url camera startSlop endSlop
          segments).1 = segments.map (vodEntry base_url camera) ∧
      (resolve_run argsVod disk_index cadence disk_err base_url camera startSlop endSlop
          segments).2 = []) ∧
    (argsVod = false → disk_index ≠ [] →
      (resolve_run argsVod disk_index cadence disk_err base_url camera startSlop endSlop
          segments).1
        = segments.filterMap (diskResolve disk_index cadence startSlop endSlop) ∧
      (resolve_run argsVod disk_index cadence disk_err base_url camera startSlop endSlop
          segments).2
        = segments.filterMap (diskFailure disk_index cadence startSlop endSlop) ∧
      (∀ p ∈ (resolve_run argsVod disk_index cadence disk_err base_url camera startSlop
          endSlop segments).2, ∃ r, p.2.2 = some r ∧ r ≠ "")) := by
  constructor
  · intro hv
    have hvt : (argsVod || decide (disk_index = [])) = true := by
      rcases hv with hv | hv <;> simp [hv]
    rw [resolve_run_eq, if_pos hvt]
    exact ⟨rfl, rfl⟩
  · intro hav hne
    have hvf : (argsVod || decide (disk_index = [])) = false := by
      simp [hav, hne]
    have heq := resolve_run_eq argsVod disk_index cadence disk_err base_url camera
      startSlop endSlop segments
    rw [hvf] at heq
    simp only [Bool.false_eq_true, if_false] at heq
    rw [heq]
    refine ⟨rfl, rfl, ?_⟩
    intro p hp
    obtain ⟨seg, _, hseg⟩ := List.mem_filterMap.mp hp
    rw [diskFailure] at hseg
    cases hfind : find_files_for_segment disk_index cadence seg.1 seg.2 startSlop
        endSlop with
    | ok ch =>
      exfalso
      rw [hfind] at hseg
      dsimp only [] at hseg
      have hch : ch ≠ [] := find_ok_ne_nil hsorted hfind
      rw [if_neg hch] at hseg
      exact Option.noConfusion hseg
    | error r =>
      rw [hfind] at hseg
      dsimp only [] at hseg
      injection hseg with h
      refine ⟨r, ?_, find_error_reason_ne hfind⟩
      rw [← h]

/-- Witness for C4's amended theorem: one segment in disk mode that resolves,
and the same run restricted to VOD mode. -/
theorem resolve_fallback_spec_witness :
    (((false : Bool) = false ∧ ([((0 : Int), "x")] : List Entry) ≠ []) ∧
      (resolve_run false [((0 : Int), "x")] none none "http://f" "cam" 2 4 [(0, 5)]).1
        = [(0, 5)].filterMap (diskResolve [((0 : Int), "x")] none 2 4) ∧
      (resolve_run false [((0 : Int), "x")] none none "http://f" "cam" 2 4 [(0, 5)]).2
        = [(0, 5)].filterMap (diskFailure [((0 : Int), "x")] none 2 4)) ∧
    (((true : Bool) = true ∨ ([((0 : Int), "x")] : List Entry) = []) ∧
      (resolve_run true [((0 : Int), "x")] none none "http://f" "cam" 2 4 [(0, 5)]).1
        = [(0, 5)].map (vodEntry "http://f" "cam")) := by
  have hs : ([((0 : Int), "x")] : List Entry).Pairwise (fun a b => a.1 ≤ b.1) := by decide
  have hd := (resolve_fallback_spec false [((0 : Int), "x")] none none "http://f" "cam"
    2 4 [(0, 5)] hs).2 rfl (by decide)
  have hv := (resolve_fallback_spec true [((0 : Int), "x")] none none "http://f" "cam"
    2 4 [(0, 5)] hs).1 (Or.inl rfl)
  exact ⟨⟨⟨rfl, by decide⟩, hd.1, hd.2.1⟩, ⟨Or.inl rfl, hv.1⟩⟩

/-- C4 counterexample to the claim as stated: in disk mode, a segment whose
disk resolution is rejected by the tolerance check produces NO manifest entry
at all (in particular no stream/VOD entry) — it is only recorded as a skip. -/
theorem resolve_skip_counterexample :
    (resolve_run false [((0 : Int), "f")] (some 30) none "http://f" "cam" 2 4
      [(1000, 1010)]).1 = [] ∧
    (resolve_run false [((0 : Int), "f")] (some 30) none "http://f" "cam" 2 4
      [(1000, 1010)]).2.length = 1 := by
  have hbs : selectPos [((0 : Int), "f")] 1000 = 0 := by
    rw [selectPos]
    rw [bsearchLoop]; norm_num
    rw [bsearchLoop]; norm_num
  have ht1 : pyRound ((2 : ℚ) * ((30 : Int) : ℚ)) = 60 := by
    have h1 : (2 : ℚ) * ((30 : Int) : ℚ) = ((60 : Int) : ℚ) := by push_cast; norm_num
    rw [h1, pyRound_intCast]
  have hfind : ∃ r, find_files_for_segment [((0 : Int), "f")] (some 30) 1000 1010 2 4
      = .error r := by
    rw [find_files_for_segment, if_neg (by decide)]
    dsimp only []
    rw [hbs]
    rw [if_neg (by norm_num)]
    rw [show ((0 : Int)).toNat = 0 from rfl]
    rw [show selection [((0 : Int), "f")] 0 1010 = [((0 : Int), "f")] from by decide]
    rw [ht1]
    rw [if_pos (by norm_num)]
    exact ⟨_, rfl⟩
  obtain ⟨r, hr⟩ := hfind
  have heq := resolve_run_eq false [((0 : Int), "f")] (some 30) none "http://f" "cam"
    2 4 [(1000, 1010)]
  rw [if_neg (by decide)] at heq
  rw [heq]
  have hdr : diskResolve [((0 : Int), "f")] (some 30) 2 4 (1000, 1010) = none := by
    rw [diskResolve, hr]
  have hdf : diskFailure [((0 : Int), "f")] (some 30) 2 4 (1000, 1010)
      = some (1000, 1010, some r) := by
    rw [diskFailure, hr]
  constructor
  · show List.filterMap (diskResolve [((0 : Int), "f")] (some 30) 2 4) [(1000, 1010)] = []
    rw [List.filterMap_cons, hdr]
    rfl
  · show (List.filterMap (diskFailure [((0 : Int), "f")] (some 30) 2 4)
        [(1000, 1010)]).length = 1
    rw [List.filterMap_cons, hdf]
    rfl

end Frigate
